import Mathlib

/-
  Verification development for the tailcallhq/lens repository.

  The repository implements a composable path-addressing algebra ("lens")
  over JSON-like documents.  The modular implementation lives in
  src/lens.rs, src/view.rs, src/modify.rs and src/select.rs; a legacy
  single-file implementation of the same algebra lives in src/lib.rs.

  The embedding below is a shallow, executable translation of that code:
  serde_json::Value becomes the inductive `Value`; the borrowed projection
  types View and Modify become inductives holding the projected values;
  in-place mutation (`Lens::set`, which writes through `Lens::get_mut`)
  becomes explicit state passing, returning the updated document.
-/

namespace LensRepo

/-- Model of serde_json::Value: a JSON-like document.  Objects are modelled
as association lists with the keys unique in well-formed documents, in
insertion order; numbers are modelled by integers, which covers every
document appearing in the repository and its tests. -/
inductive Value where
  | null : Value
  | bool (b : Bool) : Value
  | num (n : Int) : Value
  | str (s : String) : Value
  | arr (items : List Value) : Value
  | obj (entries : List (String × Value)) : Value

/-- Model of Map::get on a serde_json object: the value stored at key `f`,
reading the first matching entry. -/
def lookupField : List (String × Value) → String → Option Value
  | [], _ => none
  | (k, v) :: rest, f => if k = f then some v else lookupField rest f

/-- Model of Map::insert on a serde_json object: overwrite the entry at key
`f` in place when present, append a new entry otherwise (upsert). -/
def insertField : List (String × Value) → String → Value → List (String × Value)
  | [], f, x => [(f, x)]
  | (k, v) :: rest, f, x =>
    if k = f then (k, x) :: rest else (k, v) :: insertField rest f x

/-- Model of Value::as_object (and as_object_mut): the entry list when the
value is an object, absence otherwise. -/
def Value.asObject : Value → Option (List (String × Value))
  | .obj entries => some entries
  | _ => none

/-- Model of Value::as_array (and as_array_mut): the element list when the
value is an array, absence otherwise. -/
def Value.asArray : Value → Option (List Value)
  | .arr items => some items
  | _ => none

/-- The path-descriptor algebra, from the `Lens` enum in src/lens.rs
(the enum in src/lib.rs is identical). -/
inductive Lens where
  | field (name : String) : Lens
  | index (position : Nat) : Lens
  | compose (first second : Lens) : Lens
  | foreach : Lens
  | empty : Lens

/-- Read-only projection result, from the `View` enum in src/view.rs:
`borrow` is View::Borrow (a single projected value), `borrowVec` is
View::BorrowVec (the projections after a broadcast step). -/
inductive View where
  | borrow (v : Value) : View
  | borrowVec (vs : List View) : View

/-- Mutable projection handle, from the `Modify` enum in src/modify.rs:
`borrowMut` is Modify::BorrowMut, `borrowVec` is Modify::BorrowVec.  In the
embedding a handle records the value currently stored at the addressed
region. -/
inductive Modify where
  | borrowMut (v : Value) : Modify
  | borrowVec (ms : List Modify) : Modify

mutual
/-- Model of View::get in src/view.rs.  The Rust method narrows a view by a
fixed lens; the lens enters the embedding as the function `f`, the action
of `Lens::get` for that lens, applied at each View::Borrow leaf.  A
BorrowVec keeps the elements whose narrowing succeeds and always remains a
BorrowVec (src/view.rs lines 15-20: filter_map wrapped in Some). -/
def View.get : View → (Value → Option View) → Option View
  | .borrow v, f => f v
  | .borrowVec vs, f => some (.borrowVec (View.getList vs f))
/-- The filter_map over the elements of a View::BorrowVec performed by
View::get in src/view.rs: keep the successful narrowings, in order. -/
def View.getList : List View → (Value → Option View) → List View
  | [], _ => []
  | w :: ws, f =>
    match View.get w f with
    | some w2 => w2 :: View.getList ws f
    | none => View.getList ws f
end

/-- Model of Lens::get in src/lens.rs, variant by variant. -/
def Lens.get : Lens → Value → Option View
  | .field name, v => ((v.asObject).bind (fun m => lookupField m name)).map View.borrow
  | .index i, v => ((v.asArray).bind (fun items => items[i]?)).map View.borrow
  | .compose first second, v =>
    (Lens.get first v).bind (fun w => View.get w (fun u => Lens.get second u))
  | .foreach, v => (v.asArray).map (fun items => View.borrowVec (items.map View.borrow))
  | .empty, v => some (View.borrow v)

mutual
/-- Model of Modify::get_mut in src/modify.rs, the mutable counterpart of
View::get: `f` is the action of `Lens::get_mut` for the narrowing lens. -/
def Modify.getMut : Modify → (Value → Option Modify) → Option Modify
  | .borrowMut v, f => f v
  | .borrowVec ms, f => some (.borrowVec (Modify.getMutList ms f))
/-- The filter_map over the elements of a Modify::BorrowVec performed by
Modify::get_mut in src/modify.rs. -/
def Modify.getMutList : List Modify → (Value → Option Modify) → List Modify
  | [], _ => []
  | m :: ms, f =>
    match Modify.getMut m f with
    | some m2 => m2 :: Modify.getMutList ms f
    | none => Modify.getMutList ms f
end

/-- Model of Lens::get_mut in src/lens.rs, variant by variant. -/
def Lens.getMut : Lens → Value → Option Modify
  | .field name, v => ((v.asObject).bind (fun m => lookupField m name)).map Modify.borrowMut
  | .index i, v => ((v.asArray).bind (fun items => items[i]?)).map Modify.borrowMut
  | .compose first second, v =>
    (Lens.getMut first v).bind (fun m => Modify.getMut m (fun u => Lens.getMut second u))
  | .foreach, v => (v.asArray).map (fun items => Modify.borrowVec (items.map Modify.borrowMut))
  | .empty, v => some (Modify.borrowMut v)

mutual
/-- Forgetting mutability: the shape-preserving map from a Modify handle to
the View over the same regions (Modify::BorrowMut to View::Borrow,
Modify::BorrowVec to View::BorrowVec). -/
def Modify.toView : Modify → View
  | .borrowMut v => .borrow v
  | .borrowVec ms => .borrowVec (Modify.toViewList ms)
/-- Elementwise Modify.toView over the children of a Modify::BorrowVec. -/
def Modify.toViewList : List Modify → List View
  | [] => []
  | m :: ms => Modify.toView m :: Modify.toViewList ms
end

/-- State-passing embedding of writing through a mutable projection: the
Rust sequence `lens.get_mut(source)` followed by applying an in-place
action at every Modify::BorrowMut leaf of the resulting handle (which is
exactly what Modify::set in src/modify.rs does with the action
`Lens::set(second, _, target)`).  When get_mut returns None the document is
untouched; a BorrowVec element whose further narrowing fails is dropped by
Modify::get_mut, hence left untouched, which in state-passing form is the
same no-op. -/
def modifyThrough : Lens → (Value → Value) → Value → Value
  | .field name, g, v =>
    match v with
    | .obj entries =>
      match lookupField entries name with
      | some u => .obj (insertField entries name (g u))
      | none => v
    | _ => v
  | .index i, g, v =>
    match v with
    | .arr items =>
      match items[i]? with
      | some u => .arr (items.set i (g u))
      | none => v
    | _ => v
  | .compose first second, g, v =>
    modifyThrough first (fun w => modifyThrough second g w) v
  | .foreach, g, v =>
    match v with
    | .arr items => .arr (items.map g)
    | _ => v
  | .empty, g, v => g v

/-- Model of Lens::set in src/lens.rs, variant by variant.  The Compose
branch runs `first.get_mut(source)` and then `modify.set(second, target)`;
in state-passing form that is `modifyThrough first` with the leaf action
`Lens.set second _ target` (cloning of `target` per region is identity on
pure values). -/
def Lens.set : Lens → Value → Value → Value
  | .field name, source, target =>
    match source.asObject with
    | some entries => .obj (insertField entries name target)
    | none => source
  | .index i, source, target =>
    match source.asArray with
    | some items => if i < items.length then .arr (items.set i target) else source
    | none => source
  | .compose first second, source, target =>
    modifyThrough first (fun w => Lens.set second w target) source
  | .foreach, source, target =>
    match source.asArray with
    | some items => .arr (items.map (fun _ => target))
    | none => source
  | .empty, source, _ => source

/-- The Select impl for Lens in src/select.rs: `self.pipe(other)` composes
wholesale, producing Compose(other, self). -/
def Lens.pipeLens (self other : Lens) : Lens := .compose other self

/-- Lens::select specialised to a Lens argument (src/lens.rs line 92-94
delegating to the Select impl for Lens). -/
def Lens.selectLens (l item : Lens) : Lens := Lens.pipeLens item l

/-- The Select impl for String in src/select.rs: wrap the key as Field and
compose; the impl for a borrowed text key first converts to String and then
behaves identically. -/
def pipeString (self : String) (l : Lens) : Lens := Lens.selectLens l (.field self)

/-- The Select impl for usize in src/select.rs: wrap the key as Index and
compose. -/
def pipeNat (self : Nat) (l : Lens) : Lens := Lens.selectLens l (.index self)

/-- Lens::select specialised to a text key. -/
def Lens.selectStr (l : Lens) (s : String) : Lens := pipeString s l

/-- Lens::select specialised to an integer key. -/
def Lens.selectIdx (l : Lens) (i : Nat) : Lens := pipeNat i l

/-- Lens::new specialised to a text key: pipe into the Empty lens. -/
def Lens.newStr (s : String) : Lens := pipeString s .empty

/-- Lens::each in src/lens.rs: append a broadcast step,
ForEach.pipe(self). -/
def Lens.each (l : Lens) : Lens := Lens.pipeLens .foreach l

mutual
/-- Model of the legacy View::get in src/lib.rs (lines 10-27): same
narrowing as src/view.rs except that a BorrowVec whose surviving element
list is empty collapses to no result. -/
def legacyViewGet : View → (Value → Option View) → Option View
  | .borrow v, f => f v
  | .borrowVec vs, f =>
    match legacyViewGetList vs f with
    | [] => none
    | w :: ws => some (.borrowVec (w :: ws))
/-- The success-collecting loop of the legacy View::get in src/lib.rs. -/
def legacyViewGetList : List View → (Value → Option View) → List View
  | [], _ => []
  | w :: ws, f =>
    match legacyViewGet w f with
    | some w2 => w2 :: legacyViewGetList ws f
    | none => legacyViewGetList ws f
end

/-- Model of the legacy Lens::get in src/lib.rs (lines 74-92): identical
branch by branch to src/lens.rs, but its Compose branch narrows with the
legacy View::get. -/
def legacyGet : Lens → Value → Option View
  | .field name, v => ((v.asObject).bind (fun m => lookupField m name)).map View.borrow
  | .index i, v => ((v.asArray).bind (fun items => items[i]?)).map View.borrow
  | .compose first second, v =>
    (legacyGet first v).bind (fun w => legacyViewGet w (fun u => legacyGet second u))
  | .foreach, v => (v.asArray).map (fun items => View.borrowVec (items.map View.borrow))
  | .empty, v => some (View.borrow v)

/-- A lens with no broadcast step: no ForEach variant occurs anywhere in
the path descriptor. -/
def noForEach : Lens → Bool
  | .field _ => true
  | .index _ => true
  | .compose first second => noForEach first && noForEach second
  | .foreach => false
  | .empty => true

/-- The final (innermost, last-applied) step of the lens is a Field or an
Index step, so a write through the lens ends in an actual slot overwrite
rather than in the no-op Empty or a broadcast. -/
def writesTerminal : Lens → Bool
  | .field _ => true
  | .index _ => true
  | .compose _ second => writesTerminal second
  | .foreach => false
  | .empty => false

/- ------------------------------------------------------------------
   Helper lemmas about the object model
   ------------------------------------------------------------------ -/

theorem lookupField_insertField_self (m : List (String × Value)) (f : String) (x : Value) :
    lookupField (insertField m f x) f = some x := by
  induction m with
  | nil => simp [insertField, lookupField]
  | cons kv rest ih =>
    obtain ⟨k, v⟩ := kv
    by_cases h : k = f
    · simp [insertField, lookupField, h]
    · simp [insertField, lookupField, h, ih]

theorem lookupField_insertField_ne (m : List (String × Value)) (f k : String) (x : Value)
    (h : k ≠ f) : lookupField (insertField m f x) k = lookupField m k := by
  induction m with
  | nil => simp [insertField, lookupField, Ne.symm h]
  | cons kv rest ih =>
    obtain ⟨k0, v0⟩ := kv
    by_cases h0 : k0 = f
    · simp [insertField, lookupField, h0, Ne.symm h]
    · by_cases hk : k0 = k
      · simp [insertField, lookupField, h0, hk, h]
      · simp [insertField, lookupField, h0, hk, ih]

theorem insertField_insertField (m : List (String × Value)) (f : String) (x y : Value) :
    insertField (insertField m f x) f y = insertField m f y := by
  induction m with
  | nil => simp [insertField]
  | cons kv rest ih =>
    obtain ⟨k, v⟩ := kv
    by_cases h : k = f
    · simp [insertField, h]
    · simp [insertField, h, ih]

theorem insertField_lookup_self (m : List (String × Value)) (f : String) (w : Value)
    (h : lookupField m f = some w) : insertField m f w = m := by
  induction m with
  | nil => simp [lookupField] at h
  | cons kv rest ih =>
    obtain ⟨k, v⟩ := kv
    by_cases hk : k = f
    · simp [lookupField, hk] at h
      simp [insertField, hk, h]
    · simp [lookupField, hk] at h
      simp [insertField, hk, ih h]

theorem length_insertField_absent (m : List (String × Value)) (f : String) (x : Value)
    (h : lookupField m f = none) : (insertField m f x).length = m.length + 1 := by
  induction m with
  | nil => simp [insertField]
  | cons kv rest ih =>
    obtain ⟨k, v⟩ := kv
    by_cases hk : k = f
    · simp [lookupField, hk] at h
    · simp [lookupField, hk] at h
      simp [insertField, hk, ih h]

theorem set_getq_self (l : List Value) (i : Nat) (w : Value)
    (h : l[i]? = some w) : l.set i w = l := by
  induction l generalizing i with
  | nil => simp at h
  | cons a rest ih =>
    cases i with
    | zero =>
      simp at h
      simp [List.set, h]
    | succ n =>
      simp at h
      simp [List.set, ih n h]

/- ------------------------------------------------------------------
   Correspondence between the read engine and the write engine
   ------------------------------------------------------------------ -/

/-- Reading after writing through the same single-location path: when
`Lens::get` finds the single value `u`, writing through the lens with the
in-place action `g` (the state-passing form of get_mut plus leaf action)
updates exactly that location, so a subsequent read returns `g u`. -/
theorem get_modifyThrough (f : Lens) (g : Value → Value) (d u : Value)
    (h : Lens.get f d = some (.borrow u)) :
    Lens.get f (modifyThrough f g d) = some (.borrow (g u)) := by
  induction f generalizing g d u with
  | field name =>
    cases d <;> simp [Lens.get, Value.asObject] at h
    case obj entries =>
    rcases hl : lookupField entries name with _ | w <;> rw [hl] at h <;> simp at h
    subst h
    simp [Lens.get, modifyThrough, Value.asObject, hl, lookupField_insertField_self]
  | index i =>
    cases d <;> simp [Lens.get, Value.asArray] at h
    case arr items =>
    rcases hl : items[i]? with _ | w <;> rw [hl] at h <;> simp at h
    subst h
    have hlen : i < items.length := by
      rcases List.getElem?_eq_some.mp hl with ⟨h1, _⟩
      exact h1
    simp [Lens.get, modifyThrough, Value.asArray, hl,
      List.getElem?_set_self (by simpa using hlen)]
  | compose a b iha ihb =>
    rw [Lens.get] at h
    rcases ha : Lens.get a d with _ | va <;> rw [ha] at h <;> simp at h
    cases va with
    | borrow t =>
      rw [View.get] at h
      have ha2 := iha (fun w => modifyThrough b g w) d t ha
      have hb2 := ihb g t u h
      rw [Lens.get, modifyThrough, ha2]
      simpa [View.get] using hb2
    | borrowVec vs => simp [View.get] at h
  | foreach =>
    cases d <;> simp [Lens.get, Value.asArray] at h
  | empty =>
    simp [Lens.get] at h
    subst h
    simp [Lens.get, modifyThrough]

/-- Writing through a single-location handle with an action that fixes the
addressed value leaves the whole document unchanged. -/
theorem modifyThrough_fix (a : Lens) (g : Value → Value) (d w : Value)
    (hm : Lens.getMut a d = some (.borrowMut w)) (hg : g w = w) :
    modifyThrough a g d = d := by
  induction a generalizing g d w with
  | field name =>
    cases d <;> simp [Lens.getMut, Value.asObject] at hm
    case obj entries =>
    rcases hl : lookupField entries name with _ | u <;> rw [hl] at hm <;> simp at hm
    subst hm
    simp [modifyThrough, hl, hg, insertField_lookup_self entries name u hl]
  | index i =>
    cases d <;> simp [Lens.getMut, Value.asArray] at hm
    case arr items =>
    rcases hl : items[i]? with _ | u <;> rw [hl] at hm <;> simp at hm
    subst hm
    simp [modifyThrough, hl, hg, set_getq_self items i u hl]
  | compose a b iha ihb =>
    rw [Lens.getMut] at hm
    rcases ha : Lens.getMut a d with _ | m <;> rw [ha] at hm <;> simp at hm
    cases m with
    | borrowMut t =>
      rw [Modify.getMut] at hm
      have hbt : modifyThrough b g t = t := ihb g t w hm hg
      rw [modifyThrough]
      exact iha (fun w2 => modifyThrough b g w2) d t ha hbt
    | borrowVec ms => simp [Modify.getMut] at hm
  | foreach =>
    cases d <;> simp [Lens.getMut, Value.asArray] at hm
  | empty =>
    simp [Lens.getMut] at hm
    subst hm
    simpa [modifyThrough] using hg

/-- When `Lens::get_mut` addresses nothing, writing through the lens is a
no-op on the document, whatever the in-place action is. -/
theorem modifyThrough_of_getMut_none (l : Lens) (g : Value → Value) (d : Value)
    (hm : Lens.getMut l d = none) : modifyThrough l g d = d := by
  induction l generalizing g d with
  | field name =>
    cases d with
    | obj entries =>
      simp [Lens.getMut, Value.asObject] at hm
      simp [modifyThrough, hm]
    | null => simp [modifyThrough]
    | bool b => simp [modifyThrough]
    | num n => simp [modifyThrough]
    | str s => simp [modifyThrough]
    | arr items => simp [modifyThrough]
  | index i =>
    cases d with
    | arr items =>
      simp [Lens.getMut, Value.asArray] at hm
      simp [modifyThrough, List.getElem?_eq_none hm]
    | null => simp [modifyThrough]
    | bool b => simp [modifyThrough]
    | num n => simp [modifyThrough]
    | str s => simp [modifyThrough]
    | obj entries => simp [modifyThrough]
  | compose a b iha ihb =>
    rw [Lens.getMut] at hm
    rcases ha : Lens.getMut a d with _ | m <;> rw [ha] at hm
    · rw [modifyThrough]
      exact iha (fun w => modifyThrough b g w) d ha
    · simp at hm
      cases m with
      | borrowMut t =>
        rw [Modify.getMut] at hm
        have hbt : modifyThrough b g t = t := ihb g t hm
        rw [modifyThrough]
        exact modifyThrough_fix a (fun w => modifyThrough b g w) d t ha hbt
      | borrowVec ms => simp [Modify.getMut] at hm
  | foreach =>
    cases d <;> simp [Lens.getMut, Value.asArray] at hm <;> simp [modifyThrough]
  | empty =>
    simp [Lens.getMut] at hm

/-- Applying a pointwise-idempotent in-place action through the same lens
twice changes the document exactly as applying it once. -/
theorem modifyThrough_idem (f : Lens) (g : Value → Value)
    (hg : ∀ w, g (g w) = g w) (d : Value) :
    modifyThrough f g (modifyThrough f g d) = modifyThrough f g d := by
  induction f generalizing g d with
  | field name =>
    cases d <;> simp [modifyThrough]
    case obj entries =>
    rcases hl : lookupField entries name with _ | u
    · simp [modifyThrough, hl]
    · simp [modifyThrough, hl, lookupField_insertField_self,
        insertField_insertField, hg u]
  | index i =>
    cases d <;> simp [modifyThrough]
    case arr items =>
    rcases hl : items[i]? with _ | u
    · simp [modifyThrough, hl]
    · have hlen : i < items.length := by
        rcases List.getElem?_eq_some.mp hl with ⟨h1, _⟩
        exact h1
      simp [modifyThrough, hl, List.getElem?_set_self (by simpa using hlen),
        List.set_set, hg u]
  | compose a b iha ihb =>
    rw [modifyThrough]
    exact iha (fun w => modifyThrough b g w) (fun w => ihb g hg w) _
  | foreach =>
    cases d <;> simp [modifyThrough]
    case arr items =>
    exact fun a _ => hg a
  | empty =>
    simp [modifyThrough, hg d]

/- ------------------------------------------------------------------
   Shape lemmas and the legacy read engine
   ------------------------------------------------------------------ -/

/-- A broadcast-free lens never produces a multi-view: its read either
fails or returns a single borrowed value. -/
theorem get_single_of_noForEach (l : Lens) (hl : noForEach l = true) (v : Value) :
    Lens.get l v = none ∨ ∃ w, Lens.get l v = some (.borrow w) := by
  induction l generalizing v with
  | field name =>
    rcases h : Lens.get (.field name) v with _ | w
    · exact Or.inl rfl
    · rw [Lens.get] at h
      rcases ho : (v.asObject).bind (fun m => lookupField m name) with _ | u <;>
        rw [ho] at h <;> simp at h
      exact Or.inr ⟨u, by rw [← h]⟩
  | index i =>
    rcases h : Lens.get (.index i) v with _ | w
    · exact Or.inl rfl
    · rw [Lens.get] at h
      rcases ho : (v.asArray).bind (fun items => items[i]?) with _ | u <;>
        rw [ho] at h <;> simp at h
      exact Or.inr ⟨u, by rw [← h]⟩
  | compose a b iha ihb =>
    simp [noForEach] at hl
    rcases iha hl.1 v with ha | ⟨u, ha⟩
    · exact Or.inl (by simp [Lens.get, ha])
    · rcases ihb hl.2 u with hb | ⟨w, hb⟩
      · exact Or.inl (by simp [Lens.get, ha, View.get, hb])
      · exact Or.inr ⟨w, by simp [Lens.get, ha, View.get, hb]⟩
  | foreach => simp [noForEach] at hl
  | empty => exact Or.inr ⟨v, rfl⟩

/-- On broadcast-free lenses the legacy read engine of src/lib.rs and the
modular read engine of src/lens.rs agree on every document. -/
theorem legacyGet_eq_get_of_noForEach (l : Lens) (hl : noForEach l = true) (v : Value) :
    legacyGet l v = Lens.get l v := by
  induction l generalizing v with
  | field name => rfl
  | index i => rfl
  | compose a b iha ihb =>
    simp [noForEach] at hl
    rw [legacyGet, Lens.get, iha hl.1 v]
    rcases get_single_of_noForEach a hl.1 v with ha | ⟨u, ha⟩
    · rw [ha]
      rfl
    · rw [ha]
      simp [legacyViewGet, View.get, ihb hl.2 u]
  | foreach => simp [noForEach] at hl
  | empty => rfl

/- ------------------------------------------------------------------
   Mirroring of get_mut and get
   ------------------------------------------------------------------ -/

theorem toViewList_map_borrowMut (items : List Value) :
    Modify.toViewList (items.map Modify.borrowMut) = items.map View.borrow := by
  induction items with
  | nil => rfl
  | cons a rest ih => simp [Modify.toViewList, Modify.toView, ih]

mutual
/-- Narrowing a mutable handle mirrors narrowing the corresponding view:
if the leaf actions agree up to forgetting mutability, so do
Modify::get_mut and View::get on handles of the same shape. -/
theorem getMutV_toView (f : Value → Option Modify) (f2 : Value → Option View)
    (hf : ∀ u, (f u).map Modify.toView = f2 u) :
    ∀ m : Modify, (Modify.getMut m f).map Modify.toView = View.get (Modify.toView m) f2
  | .borrowMut v => by
    simp [Modify.getMut, Modify.toView, View.get, hf v]
  | .borrowVec ms => by
    simp [Modify.getMut, Modify.toView, View.get]
    exact getMutVList_toView f f2 hf ms
/-- Elementwise version of `getMutV_toView` for the children of a
Modify::BorrowVec. -/
theorem getMutVList_toView (f : Value → Option Modify) (f2 : Value → Option View)
    (hf : ∀ u, (f u).map Modify.toView = f2 u) :
    ∀ ms : List Modify,
      Modify.toViewList (Modify.getMutList ms f) = View.getList (Modify.toViewList ms) f2
  | [] => by simp [Modify.getMutList, Modify.toViewList, View.getList]
  | m :: ms => by
    have h1 := getMutV_toView f f2 hf m
    have h2 := getMutVList_toView f f2 hf ms
    rw [Modify.getMutList, Modify.toViewList, View.getList]
    cases hm : Modify.getMut m f with
    | some m2 =>
      rw [hm] at h1
      rw [← h1]
      simp [Modify.toViewList, h2]
    | none =>
      rw [hm] at h1
      rw [← h1]
      simp [h2]
end

/-- Lens::get_mut mirrors Lens::get exactly: forgetting mutability on the
result of get_mut yields precisely the result of get, for every lens and
document. -/
theorem getMut_toView_eq_get (l : Lens) (v : Value) :
    (Lens.getMut l v).map Modify.toView = Lens.get l v := by
  induction l generalizing v with
  | field name =>
    rw [Lens.getMut, Lens.get]
    cases (v.asObject).bind (fun m => lookupField m name) <;> simp [Modify.toView]
  | index i =>
    rw [Lens.getMut, Lens.get]
    cases (v.asArray).bind (fun items => items[i]?) <;> simp [Modify.toView]
  | compose a b iha ihb =>
    rw [Lens.getMut, Lens.get]
    cases hma : Lens.getMut a v with
    | none =>
      have ha : Lens.get a v = none := by
        rw [← iha v, hma]
        rfl
      rw [ha]
      rfl
    | some m =>
      have ha := iha v
      rw [hma] at ha
      rw [← ha]
      show (Modify.getMut m (fun u => Lens.getMut b u)).map Modify.toView =
        View.get (Modify.toView m) (fun u => Lens.get b u)
      exact getMutV_toView _ _ (fun u => ihb u) m
  | foreach =>
    rw [Lens.getMut, Lens.get]
    cases v.asArray with
    | none => simp
    | some items => simp [Modify.toView, toViewList_map_borrowMut]
  | empty =>
    simp [Lens.getMut, Lens.get, Modify.toView]

/- ------------------------------------------------------------------
   Narrowing a multi-view
   ------------------------------------------------------------------ -/

/-- The element loop of View::get is a filter over the elements: it keeps,
in order, exactly the narrowings that succeed. -/
theorem getList_eq_filterMap (f : Value → Option View) (vs : List View) :
    View.getList vs f = vs.filterMap (fun w => View.get w f) := by
  induction vs with
  | nil => rfl
  | cons w ws ih =>
    rw [View.getList]
    cases h : View.get w f <;> simp [h, ih]

/- ------------------------------------------------------------------
   Claim theorems
   ------------------------------------------------------------------ -/

/-- C1: composed broadcast write.  For the document
d = [{"a":1},{"a":2},{"a":3}] and the lens L = ForEach.select("a"),
get(L, d) returns Many([1,2,3]) and set(L, d, 4) rewrites every element
to {"a":4}. -/
theorem claim_composed_broadcast_write :
    Lens.get (Lens.selectStr .foreach "a")
      (.arr [.obj [("a", .num 1)], .obj [("a", .num 2)], .obj [("a", .num 3)]]) =
      some (.borrowVec [.borrow (.num 1), .borrow (.num 2), .borrow (.num 3)]) ∧
    Lens.set (Lens.selectStr .foreach "a")
      (.arr [.obj [("a", .num 1)], .obj [("a", .num 2)], .obj [("a", .num 3)]]) (.num 4) =
      .arr [.obj [("a", .num 4)], .obj [("a", .num 4)], .obj [("a", .num 4)]] :=
  ⟨rfl, rfl⟩

/-- C9: deep-path frame property.  For
d = \x7b"a":\x7b"b":\x7b"c":[1,2,\x7b"d":3\x7d]\x7d\x7d\x7d and the lens
built by selecting "a","b","c",2,"d" in sequence, get returns Single(3)
and set with 4 produces exactly the document with only the nested "d"
field changed: the explicit expected value shows every other key, element
and structure untouched. -/
theorem claim_deep_path_frame :
    Lens.get
      (((((Lens.empty.selectStr "a").selectStr "b").selectStr "c").selectIdx 2).selectStr "d")
      (.obj [("a", .obj [("b", .obj [("c",
        .arr [.num 1, .num 2, .obj [("d", .num 3)]])])])]) =
      some (.borrow (.num 3)) ∧
    Lens.set
      (((((Lens.empty.selectStr "a").selectStr "b").selectStr "c").selectIdx 2).selectStr "d")
      (.obj [("a", .obj [("b", .obj [("c",
        .arr [.num 1, .num 2, .obj [("d", .num 3)]])])])]) (.num 4) =
      .obj [("a", .obj [("b", .obj [("c",
        .arr [.num 1, .num 2, .obj [("d", .num 4)]])])])] :=
  ⟨rfl, rfl⟩

/-- C2 counterexample: narrowing a Many view in which no element survives
does not return no result.  Narrowing Many([1]) by Field("a") (and the
same narrowing reached through the Compose branch of Lens::get after the
ForEach broadcast) returns Some of an empty multi-view, not None. -/
theorem claim_many_narrowing_counterexample :
    View.get (.borrowVec [.borrow (.num 1)]) (fun u => Lens.get (.field "a") u) =
      some (.borrowVec []) ∧
    Lens.get (.compose .foreach (.field "a")) (.arr [.num 1]) = some (.borrowVec []) ∧
    Lens.get (.compose .foreach (.field "a")) (.arr [.num 1]) ≠ none := by
  refine ⟨rfl, rfl, fun h => ?_⟩
  have e : Lens.get (.compose .foreach (.field "a")) (.arr [.num 1]) =
      some (.borrowVec []) := rfl
  rw [e] at h
  exact Option.noConfusion h

/-- C2 amended: narrowing a Many view applies the lens to each element
independently and keeps, in order, exactly the elements that yield a
result; when no element survives it returns Some of an empty multi-view
rather than no result. -/
theorem claim_many_narrowing_amended (f : Value → Option View) (vs : List View) :
    View.get (.borrowVec vs) f =
      some (.borrowVec (vs.filterMap (fun w => View.get w f))) ∧
    ((∀ w ∈ vs, View.get w f = none) → View.get (.borrowVec vs) f = some (.borrowVec [])) := by
  constructor
  · rw [View.get, getList_eq_filterMap]
  · intro h
    rw [View.get, getList_eq_filterMap, List.filterMap_eq_nil_iff.mpr h]

/-- Witness for C2 amended at the concrete narrowing of Many([1]) by
Field("a"). -/
theorem claim_many_narrowing_amended_witness :
    View.get (.borrowVec [.borrow (.num 1)]) (fun u => Lens.get (.field "a") u) =
      some (.borrowVec (List.filterMap
        (fun w => View.get w (fun u => Lens.get (.field "a") u)) [.borrow (.num 1)])) ∧
    View.get (.borrowVec [.borrow (.num 1)]) (fun u => Lens.get (.field "a") u) =
      some (.borrowVec []) := by
  have h := claim_many_narrowing_amended
    (fun u => Lens.get (.field "a") u) [.borrow (.num 1)]
  refine ⟨h.1, h.2 ?_⟩
  intro w hw
  rw [List.mem_singleton.mp hw]
  rfl

/-- C3: broadcast write.  For every array of length n, set(ForEach, d, x)
yields an array of n copies of x (for n = 0 the empty array is unchanged,
since replicate 0 is the empty list); on a non-array document the write is
a no-op. -/
theorem claim_broadcast_write (items : List Value) (x v : Value) :
    Lens.set .foreach (.arr items) x = .arr (List.replicate items.length x) ∧
    (v.asArray = none → Lens.set .foreach v x = v) := by
  constructor
  · simp [Lens.set, Value.asArray, List.map_const']
  · intro h
    simp [Lens.set, h]

/-- Witness for C3 at a two-element array and at the non-array null. -/
theorem claim_broadcast_write_witness :
    Lens.set .foreach (.arr [.num 1, .num 2]) (.num 7) =
      .arr (List.replicate 2 (.num 7)) ∧
    Lens.set .foreach .null (.num 7) = .null :=
  ⟨(claim_broadcast_write [.num 1, .num 2] (.num 7) .null).1,
   (claim_broadcast_write [.num 1, .num 2] (.num 7) .null).2 rfl⟩

/-- C4 counterexample: the Empty lens addresses a single non-broadcast
location present in the document (the document itself: get returns
Single(1) on the document 1), yet set through it is a no-op, so the
read-after-write returns Single(1), not Single(2). -/
theorem claim_roundtrip_counterexample :
    Lens.get .empty (.num 1) = some (.borrow (.num 1)) ∧
    Lens.set .empty (.num 1) (.num 2) = .num 1 ∧
    Lens.get .empty (Lens.set .empty (.num 1) (.num 2)) ≠ some (.borrow (.num 2)) := by
  refine ⟨rfl, rfl, fun h => ?_⟩
  have e : Lens.get .empty (Lens.set .empty (.num 1) (.num 2)) =
      some (.borrow (.num 1)) := rfl
  rw [e] at h
  simp at h

/-- C4 amended: for every lens whose final (innermost) step is a Field or
Index step and that addresses a single (non-broadcast) location present in
the document, writing x and then reading returns Single(x).  (The original
claim fails only for paths ending in the Empty step, whose write is a
documented no-op.) -/
theorem claim_roundtrip_amended (L : Lens) (hT : writesTerminal L = true)
    (d w x : Value) (h : Lens.get L d = some (.borrow w)) :
    Lens.get L (Lens.set L d x) = some (.borrow x) := by
  induction L generalizing d w with
  | field name =>
    cases d <;> simp [Lens.get, Value.asObject] at h
    case obj entries =>
    simp [Lens.set, Value.asObject, Lens.get, lookupField_insertField_self]
  | index i =>
    cases d <;> simp [Lens.get, Value.asArray] at h
    case arr items =>
    rcases hl : items[i]? with _ | u <;> rw [hl] at h <;> simp at h
    have hlen : i < items.length := by
      rcases List.getElem?_eq_some.mp hl with ⟨h1, _⟩
      exact h1
    simp [Lens.set, Value.asArray, hlen, Lens.get,
      List.getElem?_set_self (by simpa using hlen)]
  | compose a b iha ihb =>
    rw [Lens.get] at h
    rcases ha : Lens.get a d with _ | va <;> rw [ha] at h <;> simp at h
    cases va with
    | borrow t =>
      rw [View.get] at h
      rw [writesTerminal] at hT
      have ha2 := get_modifyThrough a (fun u => Lens.set b u x) d t ha
      rw [Lens.set, Lens.get, ha2]
      have hb2 := ihb hT t w h
      simpa [View.get] using hb2
    | borrowVec vs => simp [View.get] at h
  | foreach => simp [writesTerminal] at hT
  | empty => simp [writesTerminal] at hT

/-- Witness for C4 amended: the lens built by Lens::new("a") on the
document with key "a" present. -/
theorem claim_roundtrip_amended_witness :
    Lens.get (Lens.newStr "a")
      (Lens.set (Lens.newStr "a") (.obj [("a", .num 1)]) (.num 9)) =
      some (.borrow (.num 9)) :=
  claim_roundtrip_amended (Lens.newStr "a") rfl (.obj [("a", .num 1)]) (.num 1) (.num 9) rfl

/-- C5: silent no-op on write mismatch, step by step: a Field write on a
non-object, an Index write on a non-array or out of bounds, a Compose
write whose outer path addresses nothing, a ForEach write on a non-array
and an Empty write all return the document unchanged; in particular a
Field write on an array is entirely unchanged.  Lens::set is a total
function, so no error is raised in any case. -/
theorem claim_set_silent_noop (f : String) (i : Nat) (first second : Lens)
    (d1 d2 d3 d4 d5 v : Value) (items : List Value) :
    (d1.asObject = none → Lens.set (.field f) d1 v = d1) ∧
    (d2.asArray = none → Lens.set (.index i) d2 v = d2) ∧
    (items.length ≤ i → Lens.set (.index i) (.arr items) v = .arr items) ∧
    (Lens.getMut first d3 = none → Lens.set (.compose first second) d3 v = d3) ∧
    (d4.asArray = none → Lens.set .foreach d4 v = d4) ∧
    (Lens.set .empty d5 v = d5) ∧
    (Lens.set (.field f) (.arr items) v = .arr items) := by
  refine ⟨?_, ?_, ?_, ?_, ?_, rfl, rfl⟩
  · intro h
    simp [Lens.set, h]
  · intro h
    simp [Lens.set, h]
  · intro h
    simp [Lens.set, Value.asArray, Nat.not_lt.mpr h]
  · intro h
    rw [Lens.set]
    exact modifyThrough_of_getMut_none first _ d3 h
  · intro h
    simp [Lens.set, h]

/-- Witness for C5: every mismatch case at a concrete document. -/
theorem claim_set_silent_noop_witness :
    Lens.set (.field "x") .null (.num 0) = .null ∧
    Lens.set (.index 5) .null (.num 0) = .null ∧
    Lens.set (.index 5) (.arr [.num 1]) (.num 0) = .arr [.num 1] ∧
    Lens.set (.compose (.field "y") .empty) .null (.num 0) = .null ∧
    Lens.set .foreach .null (.num 0) = .null ∧
    Lens.set .empty (.num 0) (.num 0) = .num 0 ∧
    Lens.set (.field "x") (.arr [.num 1]) (.num 0) = .arr [.num 1] := by
  have h := claim_set_silent_noop "x" 5 (.field "y") .empty
    .null .null .null .null (.num 0) (.num 0) [.num 1]
  exact ⟨h.1 rfl, h.2.1 rfl, h.2.2.1 (by decide), h.2.2.2.1 rfl,
    h.2.2.2.2.1 rfl, h.2.2.2.2.2.1, h.2.2.2.2.2.2⟩

/-- C6: Field set is upsert and Index set never grows.  A Field write on
an object produces an object whose key f now holds r while every other
key is unchanged; when the key was absent the object gains exactly one
entry.  An Index write within bounds overwrites exactly slot i, leaving
every other slot unchanged; out of bounds the array is returned unchanged
(no implicit growth). -/
theorem claim_field_upsert_index_bounded (entries : List (String × Value))
    (f : String) (r : Value) (items : List Value) (i j : Nat) :
    (∃ entries2, Lens.set (.field f) (.obj entries) r = .obj entries2 ∧
      ∀ k, lookupField entries2 k = if k = f then some r else lookupField entries k) ∧
    (lookupField entries f = none →
      ∃ entries2, Lens.set (.field f) (.obj entries) r = .obj entries2 ∧
        entries2.length = entries.length + 1) ∧
    (i < items.length →
      Lens.set (.index i) (.arr items) r = .arr (items.set i r) ∧
      ∀ j2, (items.set i r)[j2]? = if j2 = i then some r else items[j2]?) ∧
    (items.length ≤ j → Lens.set (.index j) (.arr items) r = .arr items) := by
  refine ⟨⟨insertField entries f r, by simp [Lens.set, Value.asObject], ?_⟩, ?_, ?_, ?_⟩
  · intro k
    by_cases hk : k = f
    · simp [hk, lookupField_insertField_self]
    · simp [hk, lookupField_insertField_ne entries f k r hk]
  · intro h
    exact ⟨insertField entries f r, by simp [Lens.set, Value.asObject],
      length_insertField_absent entries f r h⟩
  · intro h
    refine ⟨by simp [Lens.set, Value.asArray, h], ?_⟩
    intro j2
    by_cases hj : j2 = i
    · subst hj
      simp [List.getElem?_set_self h]
    · simp [hj, List.getElem?_set_ne (fun hh : i = j2 => hj hh.symm)]
  · intro h
    simp [Lens.set, Value.asArray, Nat.not_lt.mpr h]

/-- Witness for C6 at a one-key object with the written key absent and a
one-element array, in and out of bounds. -/
theorem claim_field_upsert_index_bounded_witness :
    (∃ entries2, Lens.set (.field "a") (.obj [("b", .num 1)]) (.num 2) = .obj entries2 ∧
      ∀ k, lookupField entries2 k =
        if k = "a" then some (.num 2) else lookupField [("b", .num 1)] k) ∧
    (∃ entries2, Lens.set (.field "a") (.obj [("b", .num 1)]) (.num 2) = .obj entries2 ∧
      entries2.length = 2) ∧
    (Lens.set (.index 0) (.arr [.num 3]) (.num 2) = .arr ([.num 3].set 0 (.num 2)) ∧
      ∀ j2, ([.num 3].set 0 (Value.num 2))[j2]? =
        if j2 = 0 then some (.num 2) else [Value.num 3][j2]?) ∧
    Lens.set (.index 7) (.arr [.num 3]) (.num 2) = .arr [.num 3] := by
  have h := claim_field_upsert_index_bounded [("b", .num 1)] "a" (.num 2) [.num 3] 0 7
  exact ⟨h.1, h.2.1 rfl, h.2.2.1 (by decide), h.2.2.2 (by decide)⟩

/-- C7: get_mut mirrors get exactly.  Forgetting mutability on the result
of Lens::get_mut yields exactly the result of Lens::get, so the two agree
on success and failure, return the same Single-versus-Many shape with the
same number and order of elements, and hold the same values of the
document, variant by variant (a ForEach over an array yields one handle
per element, which the map sends to the one borrowed view per element). -/
theorem claim_getMut_mirrors_get (l : Lens) (v : Value) :
    (Lens.getMut l v).map Modify.toView = Lens.get l v ∧
    ((Lens.getMut l v).isSome ↔ (Lens.get l v).isSome) := by
  have h := getMut_toView_eq_get l v
  refine ⟨h, ?_⟩
  rw [← h]
  cases Lens.getMut l v <;> simp

/-- C8: idempotence of non-broadcast writes.  For every lens with no
ForEach step, writing the same value twice produces the same document as
writing it once. -/
theorem claim_set_idempotent (L : Lens) (h : noForEach L = true) (d x : Value) :
    Lens.set L (Lens.set L d x) x = Lens.set L d x := by
  induction L generalizing d with
  | field name =>
    cases d <;> simp [Lens.set, Value.asObject]
    case obj entries => simp [insertField_insertField]
  | index i =>
    cases d <;> simp [Lens.set, Value.asArray]
    case arr items =>
    by_cases hlen : i < items.length
    · simp [hlen, Lens.set, Value.asArray, List.set_set]
    · simp [hlen, Lens.set, Value.asArray]
  | compose a b iha ihb =>
    simp [noForEach] at h
    show modifyThrough a (fun w => Lens.set b w x)
        (modifyThrough a (fun w => Lens.set b w x) d) =
      modifyThrough a (fun w => Lens.set b w x) d
    exact modifyThrough_idem a (fun w => Lens.set b w x) (fun w => ihb h.2 w) d
  | foreach => simp [noForEach] at h
  | empty => rfl

/-- Witness for C8: the two-step Field path of Lens::new("a") composed
with "b" on a nested object. -/
theorem claim_set_idempotent_witness :
    Lens.set ((Lens.newStr "a").selectStr "b")
      (Lens.set ((Lens.newStr "a").selectStr "b")
        (.obj [("a", .obj [("b", .num 1)])]) (.num 5)) (.num 5) =
    Lens.set ((Lens.newStr "a").selectStr "b")
      (.obj [("a", .obj [("b", .num 1)])]) (.num 5) :=
  claim_set_idempotent ((Lens.newStr "a").selectStr "b") rfl
    (.obj [("a", .obj [("b", .num 1)])]) (.num 5)

/-- C10 counterexample: the legacy read engine of src/lib.rs and the
modular read engine of src/lens.rs disagree.  On the lens
Compose(ForEach, Empty) and the empty array, the legacy engine collapses
the empty surviving multi-view to no result while the modular engine
returns an empty multi-view. -/
theorem claim_read_engines_counterexample :
    legacyGet (.compose .foreach .empty) (.arr []) = none ∧
    Lens.get (.compose .foreach .empty) (.arr []) = some (.borrowVec []) :=
  ⟨rfl, rfl⟩

/-- C10 amended: the legacy and the modular read engines agree (both fail
or return structurally identical view trees) on every broadcast-free
lens; they differ only where narrowing a Many view leaves no surviving
element, which the legacy engine collapses to no result and the modular
engine keeps as an empty multi-view. -/
theorem claim_read_engines_agree_amended (l : Lens) (hl : noForEach l = true)
    (v : Value) : legacyGet l v = Lens.get l v :=
  legacyGet_eq_get_of_noForEach l hl v

/-- Witness for C10 amended at a broadcast-free two-step path. -/
theorem claim_read_engines_agree_amended_witness :
    legacyGet ((Lens.newStr "a").selectIdx 1) (.obj [("a", .arr [.num 1, .num 2])]) =
      Lens.get ((Lens.newStr "a").selectIdx 1) (.obj [("a", .arr [.num 1, .num 2])]) :=
  claim_read_engines_agree_amended ((Lens.newStr "a").selectIdx 1) rfl
    (.obj [("a", .arr [.num 1, .num 2])])

end LensRepo
